import Mathlib

/-!
Verification development for the Slack reminder service
(reminder_service/app.py and reminder_service/asyncapp.py).

Texts are modelled as lists of characters.  The two regular expressions
used by the source,

  date pattern    (\d{1,2}/\d{1,2})((?:\s+.*?(?=\n\d{1,2}/\d{1,2}|\Z)))   with DOTALL
  mention pattern (@\S+(?:\s+\([^)]+\))?)

are embedded by direct recursive matchers that reproduce the leftmost,
backtracking semantics of the Python re module for these two specific
patterns (greedy digit groups with backtracking order 2-then-1, greedy
whitespace runs, a lazy dot-all middle stopped by the lookahead, greedy
non-whitespace runs, and a greedy optional parenthesized annotation).
DynamoDB storage is modelled as a list of records with query-by-key and
key-replacing put.
-/

namespace SlackReminder

/-- Texts are lists of characters. -/
abbrev Str := List Char

/-- Whitespace as matched by the backslash-s class of the Python re
module (ASCII part: space, tab, newline, carriage return, vertical tab,
form feed). -/
def isPySpace (c : Char) : Bool :=
  c == ' ' || c == '\t' || c == '\n' || c == '\r' || c == '\x0b' || c == '\x0c'

/-- Python str.strip(): drop leading and trailing whitespace. -/
def pyStrip (s : Str) : Str :=
  ((s.dropWhile isPySpace).reverse.dropWhile isPySpace).reverse

/-- Take exactly n digit characters from the front of a text, returning
the digits and the rest. -/
def takeDigits : Nat → Str → Option (Str × Str)
  | 0, s => some ([], s)
  | _ + 1, [] => none
  | n + 1, c :: s =>
    if c.isDigit then
      match takeDigits n s with
      | some (d, r) => some (c :: d, r)
      | none => none
    else none

/-- Alternatives for the second digit group of a date token, in the
backtracking order of a greedy one-or-two-digit group: two digits first,
then one. -/
def dSecond (d1 : Str) (r1 : Str) : List (Str × Str) :=
  [2, 1].filterMap fun b =>
    match takeDigits b r1 with
    | some (d2, r2) => some (d1 ++ '/' :: d2, r2)
    | none => none

/-- All ways the date token (one or two digits, slash, one or two
digits) can match at the start of a text, in backtracking order. -/
def dAlts (s : Str) : List (Str × Str) :=
  [2, 1].flatMap fun a =>
    match takeDigits a s with
    | some (d1, c :: r1) => if c = '/' then dSecond d1 r1 else []
    | _ => []

/-- The lookahead of the date pattern: a newline immediately followed by
a date token. -/
def lookNlD : Str → Bool
  | '\n' :: r => !(dAlts r).isEmpty
  | _ => false

/-- The lazy dot-all middle of the date pattern: consume as little as
possible until the lookahead holds or the text ends.  Returns the
consumed part and the remainder. -/
def lazySplit : Str → Str × Str
  | [] => ([], [])
  | c :: t =>
    if lookNlD (c :: t) then ([], c :: t)
    else
      let p := lazySplit t
      (c :: p.1, p.2)

/-- One attempt of the full date pattern at the start of a text: a date
token, then at least one whitespace character (greedy), then the lazy
middle.  Returns (date group, content group, rest) on success. -/
def matchAt (s : Str) : Option (Str × Str × Str) :=
  (dAlts s).findSome? fun p =>
    let ws := p.2.takeWhile isPySpace
    if ws.isEmpty then none
    else
      let q := lazySplit (p.2.dropWhile isPySpace)
      some (p.1, ws ++ q.1, q.2)

/-- The scan of re.findall for the date pattern, with explicit fuel (the
fuel is instantiated with the text length, which always suffices since
every step consumes at least one character). -/
def scanAux : Nat → Str → List (Str × Str)
  | 0, _ => []
  | _ + 1, [] => []
  | fuel + 1, c :: t =>
    match matchAt (c :: t) with
    | some (d, content, rest) => (d, content) :: scanAux fuel rest
    | none => scanAux fuel t

/-- re.findall of the date pattern over a text: the list of
(date, content) group pairs of the non-overlapping matches, scanning
left to right. -/
def scanFindAll (s : Str) : List (Str × Str) := scanAux s.length s

/-- One attempt of the mention pattern at the start of a text: an at
sign, a non-empty greedy run of non-whitespace, then optionally a
non-empty greedy whitespace run, an opening parenthesis, a non-empty
greedy run of characters other than the closing parenthesis, and the
closing parenthesis.  Returns (matched substring, rest) on success. -/
def mentionAt : Str → Option (Str × Str)
  | '@' :: t =>
    let core := t.takeWhile fun c => !isPySpace c
    if core.isEmpty then none
    else
      let r1 := t.dropWhile fun c => !isPySpace c
      let ws2 := r1.takeWhile isPySpace
      let r2 := r1.dropWhile isPySpace
      if ws2.isEmpty then some ('@' :: core, r1)
      else
        match r2 with
        | '(' :: u =>
          let inner := u.takeWhile fun c => c != ')'
          if inner.isEmpty then some ('@' :: core, r1)
          else
            match u.dropWhile fun c => c != ')' with
            | ')' :: r4 => some ('@' :: core ++ ws2 ++ '(' :: inner ++ [')'], r4)
            | _ => some ('@' :: core, r1)
        | _ => some ('@' :: core, r1)
  | _ => none

/-- Combined re.findall and re.sub for the mention pattern: scanning
left to right, collect every match and delete it from the text.  Returns
(matches, text with the matches removed).  Fuel as in scanAux. -/
def mentionAux : Nat → Str → List Str × Str
  | 0, s => ([], s)
  | _ + 1, [] => ([], [])
  | fuel + 1, c :: t =>
    match mentionAt (c :: t) with
    | some (m, rest) =>
      let p := mentionAux fuel rest
      (m :: p.1, p.2)
    | none =>
      let p := mentionAux fuel t
      (p.1, c :: p.2)

/-- Mention extraction and removal over a whole content block. -/
def mentionScan (s : Str) : List Str × Str := mentionAux s.length s

/-- One parsed reminder entry: the date key, the mention tokens (each
prefixed with the marker) and the remaining message text. -/
structure Entry where
  date : Str
  users : List Str
  message : Str
deriving DecidableEq

/-- Per-entry extraction, following the loop body of
parse_and_save_reminders: mentions are collected and prefixed with the
marker, the message is the content with mentions removed and stripped,
the date is stripped. -/
def extractEntry (date content : Str) : Entry :=
  let p := mentionScan content
  { date := pyStrip date
    users := p.1.map fun m => '<' :: m
    message := pyStrip p.2 }

/-- The full parser of parse_and_save_reminders: findall of the date
pattern, then per-entry mention extraction. -/
def parseReminders (text : Str) : List Entry :=
  (scanFindAll text).map fun p => extractEntry p.1 p.2

/-- A stored reminder record (one DynamoDB item of RemindersTable). -/
structure ReminderRecord where
  team_id : Str
  date : Str
  users : List Str
  message : Str
  message_ts : Str
deriving DecidableEq

/-- DynamoDB storage, modelled as a list of records. -/
abbrev Store := List ReminderRecord

/-- The key-condition query of the source: all records with the given
team_id and date. -/
def queryKey (store : Store) (team date : Str) : List ReminderRecord :=
  store.filter fun r => r.team_id == team && r.date == date

/-- DynamoDB put_item: replace every record carrying the same
(team_id, date) key, or append when the key is absent. -/
def putItem (store : Store) (r : ReminderRecord) : Store :=
  if store.any (fun x => x.team_id == r.team_id && x.date == r.date) then
    store.map fun x =>
      if x.team_id == r.team_id && x.date == r.date then r else x
  else store ++ [r]

/-- A change event appended to the changes list of
parse_and_save_reminders: creation or update. -/
inductive Change where
  | created (new : ReminderRecord)
  | updated (old new : ReminderRecord)
deriving DecidableEq

/-- The dictionary comparison of the source with the message_ts key
removed on both sides: the records agree on team_id, date, users (as
ordered sequences) and message. -/
def sameExceptTs (a b : ReminderRecord) : Bool :=
  a.team_id == b.team_id && a.date == b.date &&
    a.users == b.users && a.message == b.message

/-- The candidate item built for one parsed entry. -/
def buildItem (team ts : Str) (e : Entry) : ReminderRecord :=
  { team_id := team, date := e.date, users := e.users
    message := e.message, message_ts := ts }

/-- One reconciliation step of the loop body: query the stored records
for the key, classify (created when none, updated when the first stored
record differs outside message_ts, nothing when it agrees), then put the
candidate unconditionally. -/
def reconcileEntry (store : Store) (item : ReminderRecord) :
    Option Change × Store :=
  let ev : Option Change :=
    match queryKey store item.team_id item.date with
    | [] => some (Change.created item)
    | old :: _ => if sameExceptTs old item then none else some (Change.updated old item)
  (ev, putItem store item)

/-- The state of the reconciliation loop: accumulated changes and the
current storage. -/
def saveStep (team ts : Str) (acc : List Change × Store) (e : Entry) :
    List Change × Store :=
  let p := reconcileEntry acc.2 (buildItem team ts e)
  (acc.1 ++ p.1.toList, p.2)

/-- The result of parse_and_save_reminders: the returned success flag,
the collected change events, the final storage, and whether
notify_changes was invoked (it is exactly when the change list is
non-empty). -/
structure SaveResult where
  success : Bool
  changes : List Change
  store : Store
  notified : Bool
deriving DecidableEq

/-- parse_and_save_reminders of app.py: parse the text, reconcile every
entry in order against storage, and return success unconditionally. -/
def parseAndSaveReminders (team text ts : Str) (store : Store) : SaveResult :=
  let acc := (parseReminders text).foldl (saveStep team ts) ([], store)
  { success := true, changes := acc.1, store := acc.2
    notified := !acc.1.isEmpty }

/-- Python str.join with a comma-space separator. -/
def joinComma (l : List Str) : Str := (l.intersperse (", ".toList)).flatten

/-- Python str.join with a single-space separator. -/
def joinSpace (l : List Str) : Str := (l.intersperse (" ".toList)).flatten

/-- One outbound chat_postMessage call: the team it belongs to, the
channel it is addressed to, and its text. -/
structure OutMsg where
  team_id : Str
  channel : Str
  text : Str
deriving DecidableEq

/-- The per-change block of text built by notify_changes. -/
def changeMessage : Change → Str
  | Change.updated old new =>
    "更新:\n日付: ".toList ++ new.date ++ "\nユーザー: ".toList ++ joinComma old.users
      ++ " → ".toList ++ joinComma new.users ++ "\nメッセージ: ".toList ++ old.message
      ++ " → ".toList ++ new.message
  | Change.created new =>
    "新規作成:\n日付: ".toList ++ new.date ++ "\nユーザー: ".toList ++ joinComma new.users
      ++ "\nメッセージ: ".toList ++ new.message

/-- The text of the aggregated notification posted by notify_changes of
app.py. -/
def notifyText (changes : List Change) : Str :=
  "リマインダーが更新されました。\n".toList ++
    ((changes.map changeMessage).intersperse ("\n\n".toList)).flatten

/-- Keys of a Python dict built by insertion, in first-occurrence
order (the iteration order of reminders_by_team in send_reminders). -/
def keyOrderAux (seen : List Str) : List Str → List Str
  | [] => []
  | t :: ts =>
    if seen.contains t then keyOrderAux seen ts
    else t :: keyOrderAux (t :: seen) ts

/-- First-occurrence deduplication of a key list. -/
def keyOrder (l : List Str) : List Str := keyOrderAux [] l

/-- The text of one day-of reminder message: the mention tokens joined
by a single space, the fixed label, and the stored message. -/
def reminderText (r : ReminderRecord) : Str :=
  joinSpace r.users ++ " リマインダー: ".toList ++ r.message

/-- send_reminders of app.py: filter the storage to the records whose
date equals today, group them by team in first-occurrence order, and
emit one message per record to the team's reminder channel.  The
storage is only scanned, never written, so it is returned unchanged. -/
def sendReminders (today : Str) (reminderChannel : Str → Str) (store : Store) :
    List OutMsg × Store :=
  let todays := store.filter fun r => r.date == today
  let teams := keyOrder (todays.map fun r => r.team_id)
  (teams.flatMap fun t =>
      (todays.filter fun r => r.team_id == t).map fun r =>
        { team_id := t, channel := reminderChannel t, text := reminderText r },
    store)

/-- An inbound app_mention event as consumed by handle_app_mention. -/
structure MentionEvent where
  team_id : Str
  channel : Str
  text : Str
  ts : Str
  edited : Option Str
deriving DecidableEq

/-- The idempotency key of an event: the edited timestamp when the
event is an edit, the original timestamp otherwise. -/
def effectiveTs (ev : MentionEvent) : Str :=
  match ev.edited with
  | some ets => ets
  | none => ev.ts

/-- Python str.lower, character by character. -/
def pyLower (s : Str) : Str := s.map Char.toLower

/-- Whether the second text starts with the first. -/
def strHasPre : Str → Str → Bool
  | [], _ => true
  | _ :: _, [] => false
  | p :: ps, c :: cs => p == c && strHasPre ps cs

/-- Whether the first text occurs contiguously inside the second (the
Python in operator on strings). -/
def strHasSub (pat : Str) : Str → Bool
  | [] => pat.isEmpty
  | c :: cs => strHasPre pat (c :: cs) || strHasSub pat cs

/-- The outcome of handle_app_mention on the process state: the
duplicate-suppression set, the storage, and the posted messages. -/
structure HandleResult where
  processed : List Str
  store : Store
  posts : List OutMsg
deriving DecidableEq

/-- handle_app_mention of app.py.  The schedule channel and the per-team
reminder channel resolution, as well as today's date string, are
external collaborators passed as parameters.  The duplicate check on
the effective timestamp happens before any parsing or storage access;
a duplicate returns immediately with no state change and no post. -/
def handleAppMention (today : Str) (scheduleChannel : Str)
    (reminderChannel : Str → Str) (ev : MentionEvent)
    (processed : List Str) (store : Store) : HandleResult :=
  let ts := effectiveTs ev
  if processed.contains ts then
    { processed := processed, store := store, posts := [] }
  else
    let processedB := ts :: processed
    if strHasSub ("test".toList) (pyLower ev.text) then
      let s := sendReminders today reminderChannel store
      { processed := processedB, store := s.2
        posts := s.1 ++ [{ team_id := ev.team_id, channel := ev.channel
                           text := "テストリマインダーを送信しました。".toList }] }
    else if ev.channel == scheduleChannel then
      let r := parseAndSaveReminders ev.team_id ev.text ts store
      let notifyPosts : List OutMsg :=
        if r.notified then
          [{ team_id := ev.team_id, channel := scheduleChannel
             text := notifyText r.changes }]
        else []
      let donePost : OutMsg :=
        if ev.edited.isSome then
          { team_id := ev.team_id, channel := ev.channel
            text := "メッセージの編集がリマインダーに反映されました。".toList }
        else
          { team_id := ev.team_id, channel := ev.channel
            text := "リマインダーの設定が完了しました。".toList }
      let failPost : OutMsg :=
        { team_id := ev.team_id, channel := ev.channel
          text := "リマインダーの設定に失敗しました。正しい形式で入力されているか確認してください。".toList }
      { processed := processedB, store := r.store
        posts := notifyPosts ++ [if r.success then donePost else failPost] }
    else
      { processed := processedB, store := store, posts := [] }

/-- Storage after persisting a list of entries in order (the puts of
the reconciliation loop, which are unconditional). -/
def saveFoldStore (team ts : Str) (es : List Entry) (st : Store) : Store :=
  es.foldl (fun s e => putItem s (buildItem team ts e)) st

/-- The reconciliation loop with storage-failure injection: the
operations of the loop are numbered in execution order (the query of
entry number j is operation 2*j, its put is operation 2*j+1), and the
operation numbered failOp raises.  The error value carries the storage
as committed when the exception propagates; there is no rollback. -/
def excGo (team ts : Str) (failOp : Nat) :
    List Entry → Nat → Store → List Change → Except Store (Bool × List Change × Store)
  | [], _, st, chs => Except.ok (true, chs, st)
  | e :: es, opIdx, st, chs =>
    if opIdx == failOp then Except.error st
    else
      let p := reconcileEntry st (buildItem team ts e)
      if opIdx + 1 == failOp then Except.error st
      else excGo team ts failOp es (opIdx + 2) p.2 (chs ++ p.1.toList)

/-- parse_and_save_reminders under storage-failure injection. -/
def parseAndSaveExc (team text ts : Str) (store : Store) (failOp : Nat) :
    Except Store (Bool × List Change × Store) :=
  excGo team ts failOp (parseReminders text) 0 store []

/-- The storage invariant of the spec: no two stored records share the
(team_id, date) key. -/
def KeyUnique (st : Store) : Prop :=
  st.Pairwise fun a b => ¬(a.team_id = b.team_id ∧ a.date = b.date)

/-- The last entry of a list carrying a given date, if any. -/
def lastWith (es : List Entry) (d : Str) : Option Entry :=
  (es.filter fun e => e.date == d).getLast?

/-- The suffixes of a text that start right after a newline. -/
def lineTails : Str → List Str
  | [] => []
  | c :: t => if c = '\n' then t :: lineTails t else lineTails t

/-- The claim of the specification that a date token occurs at the
start of some line of the text: the date token shape matches at
position zero or right after a newline. -/
def lineStartDateExists (s : Str) : Bool :=
  !(dAlts s).isEmpty || (lineTails s).any fun t => !(dAlts t).isEmpty

end SlackReminder

namespace SlackReminder.AsyncApp

/-- The parser of parse_and_save_reminders in asyncapp.py, whose date
and mention patterns and extraction code are character-for-character
the same as in app.py. -/
def parseReminders (text : Str) : List Entry :=
  (scanFindAll text).map fun p => extractEntry p.1 p.2

/-- parse_and_save_reminders of asyncapp.py: identical parsing,
classification, persistence and unconditional success, with suspend
points at the external calls as the only difference. -/
def parseAndSaveReminders (team text ts : Str) (store : Store) : SaveResult :=
  let acc := (AsyncApp.parseReminders text).foldl (saveStep team ts) ([], store)
  { success := true, changes := acc.1, store := acc.2
    notified := !acc.1.isEmpty }

end SlackReminder.AsyncApp

namespace SlackReminder

example : parseReminders "3/1 Lunch @x\n3/2 Dinner @y".toList =
    [⟨"3/1".toList, ["<@x".toList], "Lunch".toList⟩,
     ⟨"3/2".toList, ["<@y".toList], "Dinner".toList⟩] := by decide

example : parseReminders "5/3".toList = [] := by decide

example : parseReminders "x 5/3 a".toList =
    [⟨"5/3".toList, [], "a".toList⟩] := by decide

example : parseReminders "5/3 \n4/5 b".toList =
    [⟨"5/3".toList, [], "4/5 b".toList⟩] := by decide

example : (parseReminders "5/3 Meeting @alice @bob (lead) notes here".toList).map
    (fun e => e.message) = ["Meeting   notes here".toList] := by decide

example :
    (parseAndSaveReminders "T".toList "3/1 Lunch @x".toList "1".toList []).store =
      [⟨"T".toList, "3/1".toList, ["<@x".toList], "Lunch".toList, "1".toList⟩] := by decide

example :
    (parseAndSaveReminders "T".toList "3/1 Lunch @z".toList "2".toList
      [⟨"T".toList, "3/1".toList, ["<@x".toList], "Lunch".toList, "1".toList⟩]).changes =
      [Change.updated
        ⟨"T".toList, "3/1".toList, ["<@x".toList], "Lunch".toList, "1".toList⟩
        ⟨"T".toList, "3/1".toList, ["<@z".toList], "Lunch".toList, "2".toList⟩] := by decide

theorem takeDigits_append {n : Nat} {s d r : Str}
    (h : takeDigits n s = some (d, r)) : s = d ++ r ∧ d.length = n := by
  induction n generalizing s d r with
  | zero =>
    simp only [takeDigits, Option.some.injEq, Prod.mk.injEq] at h
    simp [← h.1, ← h.2]
  | succ n ih =>
    match s with
    | [] => simp [takeDigits] at h
    | c :: s' =>
      simp only [takeDigits] at h
      by_cases hc : c.isDigit
      · simp only [hc, if_true] at h
        match hd : takeDigits n s' with
        | none => rw [hd] at h; exact absurd h (by simp)
        | some (d', r') =>
          rw [hd] at h
          simp only [Option.some.injEq, Prod.mk.injEq] at h
          obtain ⟨h1, h2⟩ := h
          obtain ⟨ha, hb⟩ := ih hd
          subst h1 h2
          simp [ha, hb]
      · simp [hc] at h

theorem dSecond_append {d1 r1 : Str} {p : Str × Str} (h : p ∈ dSecond d1 r1) :
    d1 ++ '/' :: r1 = p.1 ++ p.2 ∧ d1.length + 2 ≤ p.1.length := by
  simp only [dSecond, List.mem_filterMap, List.mem_cons, List.mem_singleton] at h
  obtain ⟨b, hb, hmem⟩ := h
  match h2 : takeDigits b r1 with
  | none => rw [h2] at hmem; simp at hmem
  | some (d2, r2) =>
    rw [h2] at hmem
    simp only [Option.some.injEq] at hmem
    obtain ⟨hs2, hl2⟩ := takeDigits_append h2
    subst hmem
    constructor
    · simp [hs2]
    · simp only [List.length_append, List.length_cons, hl2]
      have hb1 : 1 ≤ b := by rcases hb with hb | hb | hb <;> first | omega | simp at hb
      omega

theorem dAlts_append {s : Str} {p : Str × Str} (h : p ∈ dAlts s) :
    s = p.1 ++ p.2 ∧ 3 ≤ p.1.length := by
  simp only [dAlts, List.mem_flatMap, List.mem_cons, List.mem_singleton] at h
  obtain ⟨a, ha, hmem⟩ := h
  match h1 : takeDigits a s with
  | none => rw [h1] at hmem; simp at hmem
  | some (d1, r) =>
    rw [h1] at hmem
    match r with
    | [] => simp at hmem
    | c :: r1 =>
      simp only at hmem
      by_cases hc : c = '/'
      · rw [if_pos hc] at hmem
        subst hc
        obtain ⟨hs1, hl1⟩ := takeDigits_append h1
        obtain ⟨hs2, hl2⟩ := dSecond_append hmem
        refine ⟨?_, ?_⟩
        · rw [hs1, hs2]
        · have ha1 : 1 ≤ a := by rcases ha with ha | ha | ha <;> first | omega | simp at ha
          omega
      · rw [if_neg hc] at hmem
        simp at hmem

theorem lazySplit_append (s : Str) : (lazySplit s).1 ++ (lazySplit s).2 = s := by
  induction s with
  | nil => simp [lazySplit]
  | cons c t ih =>
    simp only [lazySplit]
    by_cases h : lookNlD (c :: t)
    · simp [h]
    · simp [h, ih]

theorem matchAt_nil : matchAt [] = none := rfl

theorem matchAt_some {s d content rest : Str}
    (h : matchAt s = some (d, content, rest)) :
    s = d ++ content ++ rest ∧ 3 ≤ d.length ∧
      ∃ c cs, content = c :: cs ∧ isPySpace c = true := by
  unfold matchAt at h
  obtain ⟨p, hp, hbody⟩ := List.exists_of_findSome?_eq_some h
  obtain ⟨hs, hlen⟩ := dAlts_append hp
  simp only at hbody
  by_cases hws : (p.2.takeWhile isPySpace).isEmpty
  · rw [if_pos hws] at hbody
    exact absurd hbody (by simp)
  · rw [if_neg hws] at hbody
    simp only [Option.some.injEq, Prod.mk.injEq] at hbody
    obtain ⟨hd, hcontent, hrest⟩ := hbody
    match hw : p.2.takeWhile isPySpace with
    | [] => rw [hw] at hws; simp at hws
    | w :: ws' =>
      have hwmem : w ∈ p.2.takeWhile isPySpace := by rw [hw]; exact List.mem_cons_self w ws'
      have hwsp : isPySpace w = true := List.mem_takeWhile_imp hwmem
      refine ⟨?_, hd ▸ hlen, w, ws' ++ (lazySplit (p.2.dropWhile isPySpace)).1,
        by rw [← hcontent, hw]; simp, hwsp⟩
      have hsplit := lazySplit_append (p.2.dropWhile isPySpace)
      have hdecomp : p.2.takeWhile isPySpace ++ p.2.dropWhile isPySpace = p.2 :=
        List.takeWhile_append_dropWhile isPySpace p.2
      have hp2 : p.2 = content ++ rest := by
        rw [← hcontent, ← hrest, List.append_assoc, hsplit, hdecomp]
      rw [hs, hd, hp2, List.append_assoc]

theorem matchAt_rest_len {s d content rest : Str}
    (h : matchAt s = some (d, content, rest)) : rest.length + 4 ≤ s.length := by
  obtain ⟨hs, hd, c, cs, hc, _⟩ := matchAt_some h
  rw [hs, hc]
  simp only [List.length_append, List.length_cons]
  omega

theorem matchAt_rest_suffix {s d content rest : Str}
    (h : matchAt s = some (d, content, rest)) : rest <:+ s := by
  obtain ⟨hs, _, _⟩ := matchAt_some h
  exact ⟨d ++ content, by rw [hs]⟩

theorem scanAux_eq_nil_iff {fuel : Nat} {s : Str} (hf : s.length ≤ fuel) :
    scanAux fuel s = [] ↔ ∀ s', s' <:+ s → matchAt s' = none := by
  induction fuel generalizing s with
  | zero =>
    have hs : s = [] := List.length_eq_zero.mp (Nat.le_zero.mp hf)
    subst hs
    simp only [scanAux, true_iff]
    intro s' hs'
    rw [List.suffix_nil.mp hs']
    exact matchAt_nil
  | succ fuel ih =>
    cases s with
    | nil =>
      simp only [scanAux, true_iff]
      intro s' hs'
      rw [List.suffix_nil.mp hs']
      exact matchAt_nil
    | cons c t =>
      have ht : t.length ≤ fuel := by
        simp only [List.length_cons] at hf; omega
      simp only [scanAux]
      cases hm : matchAt (c :: t) with
      | some v =>
        obtain ⟨d, content, rest⟩ := v
        constructor
        · intro hcontr; exact absurd hcontr (by simp)
        · intro hall
          have := hall (c :: t) (List.suffix_refl _)
          rw [hm] at this
          exact absurd this (by simp)
      | none =>
        rw [ih ht]
        constructor
        · intro hall s' hs'
          rcases List.suffix_cons_iff.mp hs' with h1 | h1
          · rw [h1]; exact hm
          · exact hall s' h1
        · intro hall s' hs'
          exact hall s' (hs'.trans (List.suffix_cons c t))

theorem scanAux_mem {fuel : Nat} {s : Str} {p : Str × Str} (hf : s.length ≤ fuel)
    (hp : p ∈ scanAux fuel s) :
    ∃ s' rest, s' <:+ s ∧ matchAt s' = some (p.1, p.2, rest) := by
  induction fuel generalizing s with
  | zero =>
    have hs : s = [] := List.length_eq_zero.mp (Nat.le_zero.mp hf)
    subst hs
    simp [scanAux] at hp
  | succ fuel ih =>
    cases s with
    | nil => simp [scanAux] at hp
    | cons c t =>
      have ht : t.length ≤ fuel := by
        simp only [List.length_cons] at hf; omega
      simp only [scanAux] at hp
      cases hm : matchAt (c :: t) with
      | some v =>
        obtain ⟨d, content, rest⟩ := v
        rw [hm] at hp
        simp only [List.mem_cons] at hp
        rcases hp with he | he
        · refine ⟨c :: t, rest, List.suffix_refl _, ?_⟩
          subst he
          exact hm
        · have hlen := matchAt_rest_len hm
          have hrest : rest.length ≤ fuel := by
            simp only [List.length_cons] at hlen hf; omega
          obtain ⟨s', r', hsuf, hmm⟩ := ih hrest he
          exact ⟨s', r', hsuf.trans (matchAt_rest_suffix hm), hmm⟩
      | none =>
        rw [hm] at hp
        obtain ⟨s', r', hsuf, hmm⟩ := ih ht hp
        exact ⟨s', r', hsuf.trans (List.suffix_cons c t), hmm⟩

theorem sameExceptTs_buildItem (team ts1 ts2 : Str) (e : Entry) :
    sameExceptTs (buildItem team ts1 e) (buildItem team ts2 e) = true := by
  simp [sameExceptTs, buildItem]

theorem replace_keyEq (r x : ReminderRecord) :
    ((if x.team_id == r.team_id && x.date == r.date then r else x).team_id = x.team_id) ∧
    ((if x.team_id == r.team_id && x.date == r.date then r else x).date = x.date) := by
  by_cases hm : (x.team_id == r.team_id && x.date == r.date) = true
  · rw [if_pos hm]
    rw [Bool.and_eq_true, beq_iff_eq, beq_iff_eq] at hm
    exact ⟨hm.1.symm, hm.2.symm⟩
  · rw [if_neg hm]
    exact ⟨rfl, rfl⟩

theorem queryKey_putItem_ne {st : Store} {r : ReminderRecord} {t d : Str}
    (h : ¬(r.team_id = t ∧ r.date = d)) :
    queryKey (putItem st r) t d = queryKey st t d := by
  have hpr : (r.team_id == t && r.date == d) = false := by
    by_contra hc
    rw [Bool.not_eq_false, Bool.and_eq_true, beq_iff_eq, beq_iff_eq] at hc
    exact h hc
  unfold putItem queryKey
  by_cases hany : st.any (fun x => x.team_id == r.team_id && x.date == r.date) = true
  · rw [if_pos hany, List.filter_map]
    have hfc : ∀ x ∈ st,
        ((fun y : ReminderRecord => y.team_id == t && y.date == d) ∘
          fun x => if x.team_id == r.team_id && x.date == r.date then r else x) x
        = (fun y : ReminderRecord => y.team_id == t && y.date == d) x := by
      intro x _
      by_cases hx : (x.team_id == r.team_id && x.date == r.date) = true
      · have hk : x.team_id = r.team_id ∧ x.date = r.date := by
          rw [Bool.and_eq_true, beq_iff_eq, beq_iff_eq] at hx
          exact hx
        simp only [Function.comp_apply, if_pos hx]
        rw [hpr]
        have hxf : (x.team_id == t && x.date == d) = false := by
          by_contra hc
          rw [Bool.not_eq_false, Bool.and_eq_true, beq_iff_eq, beq_iff_eq] at hc
          exact h ⟨hk.1 ▸ hc.1, hk.2 ▸ hc.2⟩
        rw [hxf]
      · simp only [Function.comp_apply, if_neg hx]
    rw [List.filter_congr hfc]
    have hid : ∀ y ∈ st.filter (fun y : ReminderRecord => y.team_id == t && y.date == d),
        (fun x => if x.team_id == r.team_id && x.date == r.date then r else x) y = y := by
      intro y hy
      rw [List.mem_filter] at hy
      by_cases hk : (y.team_id == r.team_id && y.date == r.date) = true
      · exfalso
        rw [Bool.and_eq_true, beq_iff_eq, beq_iff_eq] at hk
        have hyt := hy.2
        rw [Bool.and_eq_true, beq_iff_eq, beq_iff_eq] at hyt
        exact h ⟨hk.1 ▸ hyt.1, hk.2 ▸ hyt.2⟩
      · simp [hk]
    rw [List.map_congr_left hid]
    simp
  · rw [if_neg hany, List.filter_append]
    simp [List.filter_cons, hpr]

theorem filter_key_map_self {r : ReminderRecord} :
    ∀ st : Store, KeyUnique st →
      st.any (fun x => x.team_id == r.team_id && x.date == r.date) = true →
      (st.map fun x => if x.team_id == r.team_id && x.date == r.date then r else x).filter
          (fun y => y.team_id == r.team_id && y.date == r.date) = [r] := by
  intro st
  induction st with
  | nil => intro _ hany; simp at hany
  | cons x xs ih =>
    intro hu hany
    rw [KeyUnique, List.pairwise_cons] at hu
    obtain ⟨hx, hu'⟩ := hu
    by_cases hm : (x.team_id == r.team_id && x.date == r.date) = true
    · have hkey : x.team_id = r.team_id ∧ x.date = r.date := by
        rw [Bool.and_eq_true, beq_iff_eq, beq_iff_eq] at hm
        exact hm
      have hnomatch : ∀ y ∈ xs, ¬ (y.team_id == r.team_id && y.date == r.date) = true := by
        intro y hy hc
        rw [Bool.and_eq_true, beq_iff_eq, beq_iff_eq] at hc
        exact hx y hy ⟨by rw [hkey.1, ← hc.1], by rw [hkey.2, ← hc.2]⟩
      have hnil : (xs.map fun x =>
          if x.team_id == r.team_id && x.date == r.date then r else x).filter
          (fun y => y.team_id == r.team_id && y.date == r.date) = [] := by
        rw [List.filter_eq_nil_iff]
        intro a ha
        rw [List.mem_map] at ha
        obtain ⟨y, hy, hfy⟩ := ha
        rw [← hfy]
        simp [hnomatch y hy]
      have hpr : (r.team_id == r.team_id && r.date == r.date) = true := by simp
      simp only [List.map_cons, if_pos hm, List.filter_cons, hpr, if_pos]
      rw [hnil]
    · have hany' : xs.any (fun x => x.team_id == r.team_id && x.date == r.date) = true := by
        rw [List.any_cons] at hany
        rcases Bool.or_eq_true_iff.mp hany with hc | hc
        · exact absurd hc hm
        · exact hc
      simp only [List.map_cons, if_neg hm, List.filter_cons]
      exact ih hu' hany'

theorem queryKey_putItem_self {st : Store} {r : ReminderRecord} (hu : KeyUnique st) :
    queryKey (putItem st r) r.team_id r.date = [r] := by
  unfold putItem
  by_cases hany : st.any (fun x => x.team_id == r.team_id && x.date == r.date) = true
  · rw [if_pos hany]
    exact filter_key_map_self st hu hany
  · rw [if_neg hany]
    have hpr : (r.team_id == r.team_id && r.date == r.date) = true := by simp
    simp only [Bool.not_eq_true] at hany
    rw [queryKey, List.filter_append,
      List.filter_eq_nil_iff.mpr (List.any_eq_false.mp hany)]
    simp [List.filter_cons, hpr]

theorem keyUnique_putItem {st : Store} {r : ReminderRecord} (hu : KeyUnique st) :
    KeyUnique (putItem st r) := by
  unfold putItem
  by_cases hany : st.any (fun x => x.team_id == r.team_id && x.date == r.date) = true
  · rw [if_pos hany]
    rw [KeyUnique, List.pairwise_map]
    refine hu.imp ?_
    intro a b hab hc
    apply hab
    obtain ⟨ha1, ha2⟩ := replace_keyEq r a
    obtain ⟨hb1, hb2⟩ := replace_keyEq r b
    exact ⟨ha1 ▸ hb1 ▸ hc.1, ha2 ▸ hb2 ▸ hc.2⟩
  · rw [if_neg hany]
    simp only [Bool.not_eq_true] at hany
    have hall := List.any_eq_false.mp hany
    rw [KeyUnique, List.pairwise_append]
    refine ⟨hu, by simp, ?_⟩
    intro a ha b hb hc
    rw [List.mem_singleton] at hb
    subst hb
    apply hall a ha
    rw [Bool.and_eq_true, beq_iff_eq, beq_iff_eq]
    exact hc

theorem getLast?_cons_of_ne_nil {α : Type} {a : α} {l : List α} (h : l ≠ []) :
    (a :: l).getLast? = l.getLast? := by
  cases l with
  | nil => exact absurd rfl h
  | cons b m => exact List.getLast?_cons_cons

theorem saveStep_store (team ts : Str) :
    ∀ (es : List Entry) (chs : List Change) (st : Store),
      (es.foldl (saveStep team ts) (chs, st)).2 = saveFoldStore team ts es st := by
  intro es
  induction es with
  | nil => intro chs st; rfl
  | cons e es ih =>
    intro chs st
    rw [List.foldl_cons]
    have hstep : saveStep team ts (chs, st) e =
        (chs ++ (reconcileEntry st (buildItem team ts e)).1.toList,
          putItem st (buildItem team ts e)) := rfl
    rw [hstep, ih]
    rfl

theorem keyUnique_saveFold (team ts : Str) :
    ∀ (es : List Entry) (st : Store), KeyUnique st →
      KeyUnique (saveFoldStore team ts es st) := by
  intro es
  induction es with
  | nil => intro st hu; exact hu
  | cons e es ih =>
    intro st hu
    exact ih _ (keyUnique_putItem hu)

theorem queryKey_saveFold_ne (team ts : Str) :
    ∀ (es : List Entry) (st : Store) (t d : Str), t ≠ team →
      queryKey (saveFoldStore team ts es st) t d = queryKey st t d := by
  intro es
  induction es with
  | nil => intro st t d _; rfl
  | cons e es ih =>
    intro st t d ht
    have h1 := ih (putItem st (buildItem team ts e)) t d ht
    have h2 := @queryKey_putItem_ne st (buildItem team ts e) t d
      (fun hc => ht (show team = t from hc.1).symm)
    exact h1.trans h2

theorem queryKey_saveFold_eq (team ts : Str) :
    ∀ (es : List Entry) (st : Store), KeyUnique st → ∀ d : Str,
      queryKey (saveFoldStore team ts es st) team d =
        match lastWith es d with
        | some e => [buildItem team ts e]
        | none => queryKey st team d := by
  intro es
  induction es with
  | nil => intro st _ d; rfl
  | cons e es ih =>
    intro st hu d
    have hst' : KeyUnique (putItem st (buildItem team ts e)) := keyUnique_putItem hu
    have ihh := ih (putItem st (buildItem team ts e)) hst' d
    cases hlast : lastWith es d with
    | some e' =>
      rw [hlast] at ihh
      have hl2 : lastWith (e :: es) d = some e' := by
        unfold lastWith at hlast ⊢
        rw [List.filter_cons]
        by_cases hed : (e.date == d) = true
        · rw [if_pos hed]
          have hne : (es.filter fun e => e.date == d) ≠ [] := by
            intro hc
            rw [hc] at hlast
            simp at hlast
          rw [getLast?_cons_of_ne_nil hne, hlast]
        · rw [if_neg hed]
          exact hlast
      rw [hl2]
      exact ihh
    | none =>
      rw [hlast] at ihh
      have hfil : (es.filter fun x => x.date == d) = [] := by
        unfold lastWith at hlast
        exact List.getLast?_eq_none_iff.mp hlast
      by_cases hed : (e.date == d) = true
      · have hed' : e.date = d := beq_iff_eq.mp hed
        subst hed'
        have hl2 : lastWith (e :: es) e.date = some e := by
          unfold lastWith
          rw [List.filter_cons, if_pos hed, hfil]
          simp
        have hself := @queryKey_putItem_self st (buildItem team ts e) hu
        rw [hl2]
        exact ihh.trans hself
      · have hl2 : lastWith (e :: es) d = none := by
          unfold lastWith
          rw [List.filter_cons, if_neg hed, hfil]
          rfl
        have hne := @queryKey_putItem_ne st (buildItem team ts e) team d
          (fun hc => hed (beq_iff_eq.mpr (show e.date = d from hc.2)))
        rw [hl2]
        exact ihh.trans hne

theorem saveStep_changes_mono (team ts : Str) :
    ∀ (es : List Entry) (chs : List Change) (st : Store) (c : Change), c ∈ chs →
      c ∈ (es.foldl (saveStep team ts) (chs, st)).1 := by
  intro es
  induction es with
  | nil => intro chs st c hc; exact hc
  | cons e es ih =>
    intro chs st c hc
    rw [List.foldl_cons]
    exact ih _ _ c (List.mem_append_left _ hc)

theorem changes_created_of_absent (team ts : Str) :
    ∀ (es : List Entry) (st : Store) (chs : List Change),
      (es.map fun e => e.date).Nodup →
      ∀ e ∈ es, queryKey st team e.date = [] →
        Change.created (buildItem team ts e) ∈ (es.foldl (saveStep team ts) (chs, st)).1 := by
  intro es
  induction es with
  | nil => intro st chs _ e he; exact absurd he (by simp)
  | cons e' es ih =>
    intro st chs hnd e he hq
    have hnd' : (e'.date :: es.map fun x => x.date).Nodup := by simpa using hnd
    obtain ⟨hnotin, hndtail⟩ := List.nodup_cons.mp hnd'
    rw [List.foldl_cons]
    rcases List.mem_cons.mp he with he | he
    · subst he
      have hq' : queryKey st (buildItem team ts e).team_id (buildItem team ts e).date
          = [] := hq
      have hstep : saveStep team ts (chs, st) e =
          (chs ++ [Change.created (buildItem team ts e)],
            putItem st (buildItem team ts e)) := by
        simp only [saveStep, reconcileEntry]
        rw [hq']
        rfl
      rw [hstep]
      exact saveStep_changes_mono team ts es _ _ _ (by simp)
    · have hne : e.date ≠ e'.date := by
        intro hc
        exact hnotin (hc ▸ List.mem_map_of_mem _ he)
      have hstep : (saveStep team ts (chs, st) e').2 =
          putItem st (buildItem team ts e') := rfl
      have hq2 : queryKey (saveStep team ts (chs, st) e').2 team e.date = [] := by
        rw [hstep, queryKey_putItem_ne
          (fun hc => hne (show e'.date = e.date from hc.2).symm)]
        exact hq
      have hpair : saveStep team ts (chs, st) e' =
          ((saveStep team ts (chs, st) e').1, (saveStep team ts (chs, st) e').2) := rfl
      rw [hpair]
      exact ih _ _ hndtail e he hq2

theorem saveStep_noChange (team ts1 ts2 : Str) :
    ∀ (es : List Entry) (st : Store) (chs : List Change),
      (es.map fun e => e.date).Nodup →
      (∀ e ∈ es, queryKey st team e.date = [buildItem team ts1 e]) →
      (es.foldl (saveStep team ts2) (chs, st)).1 = chs := by
  intro es
  induction es with
  | nil => intro st chs _ _; rfl
  | cons e es ih =>
    intro st chs hnd hq
    have hnd' : (e.date :: es.map fun x => x.date).Nodup := by simpa using hnd
    obtain ⟨hnotin, hndtail⟩ := List.nodup_cons.mp hnd'
    have hqe' : queryKey st (buildItem team ts2 e).team_id (buildItem team ts2 e).date
        = [buildItem team ts1 e] := hq e (List.mem_cons_self e es)
    have hstep : saveStep team ts2 (chs, st) e =
        (chs, putItem st (buildItem team ts2 e)) := by
      simp only [saveStep, reconcileEntry]
      rw [hqe']
      simp [sameExceptTs_buildItem]
    rw [List.foldl_cons, hstep]
    apply ih _ _ hndtail
    intro e' he'
    have hne : e'.date ≠ e.date := by
      intro hc
      exact hnotin (hc ▸ List.mem_map_of_mem _ he')
    rw [queryKey_putItem_ne (fun hc => hne (show e.date = e'.date from hc.2).symm)]
    exact hq e' (List.mem_cons_of_mem e he')

end SlackReminder

namespace SlackReminder

/-- C1: one reconciliation step against storage produces a change event
iff either no record is stored for the (team_id, date) key (then a
Created event carrying the candidate) or the first stored record differs
from the candidate in at least one field other than message_ts (then an
Updated event with old the stored record and new the candidate); the
comparison is exactly agreement on team_id, date, users as an ordered
sequence, and message, so stored and candidate records whose users lists
differ — for instance the same elements in a different order — are
classified as different, and no event of any kind is produced when the
two records agree on those four fields. -/
theorem claim1_change_classification (store : Store) (item : ReminderRecord) :
    (∀ old : ReminderRecord, sameExceptTs old item = true ↔
        (old.team_id = item.team_id ∧ old.date = item.date ∧
          old.users = item.users ∧ old.message = item.message)) ∧
    (queryKey store item.team_id item.date = [] →
      (reconcileEntry store item).1 = some (Change.created item)) ∧
    (∀ old rest, queryKey store item.team_id item.date = old :: rest →
      (sameExceptTs old item = false →
        (reconcileEntry store item).1 = some (Change.updated old item)) ∧
      (sameExceptTs old item = true → (reconcileEntry store item).1 = none)) ∧
    (∀ old rest, queryKey store item.team_id item.date = old :: rest →
      old.users ≠ item.users →
      (reconcileEntry store item).1 = some (Change.updated old item)) ∧
    ((reconcileEntry store item).1.isSome = true ↔
      (queryKey store item.team_id item.date = [] ∨
        ∃ old rest, queryKey store item.team_id item.date = old :: rest ∧
          sameExceptTs old item = false)) := by
  have hsame : ∀ old : ReminderRecord, sameExceptTs old item = true ↔
      (old.team_id = item.team_id ∧ old.date = item.date ∧
        old.users = item.users ∧ old.message = item.message) := by
    intro old
    simp [sameExceptTs, and_assoc]
  refine ⟨hsame, ?_, ?_, ?_, ?_⟩
  · intro hq
    simp [reconcileEntry, hq]
  · intro old rest hq
    constructor
    · intro hf
      simp [reconcileEntry, hq, hf]
    · intro ht
      simp [reconcileEntry, hq, ht]
  · intro old rest hq hne
    have hf : sameExceptTs old item = false := by
      rw [Bool.eq_false_iff]
      intro hc
      exact hne ((hsame old).mp hc).2.2.1
    simp [reconcileEntry, hq, hf]
  · constructor
    · intro hs
      cases hq : queryKey store item.team_id item.date with
      | nil => exact Or.inl rfl
      | cons old rest =>
        by_cases hst : sameExceptTs old item = true
        · exfalso
          simp [reconcileEntry, hq, hst] at hs
        · exact Or.inr ⟨old, rest, rfl, Bool.eq_false_iff.mpr hst⟩
    · intro h
      rcases h with hq | ⟨old, rest, hq, hf⟩
      · simp [reconcileEntry, hq]
      · simp [reconcileEntry, hq, hf]

theorem claim1_witness :
    (reconcileEntry
        [⟨"T".toList, "5/6".toList, ["<@a".toList, "<@b".toList], "m".toList, "1".toList⟩]
        ⟨"T".toList, "5/6".toList, ["<@b".toList, "<@a".toList], "m".toList, "2".toList⟩).1
      = some (Change.updated
          ⟨"T".toList, "5/6".toList, ["<@a".toList, "<@b".toList], "m".toList, "1".toList⟩
          ⟨"T".toList, "5/6".toList, ["<@b".toList, "<@a".toList], "m".toList, "2".toList⟩) :=
  (claim1_change_classification _ _).2.2.2.1 _ [] (by decide) (by decide)

/-- C3 counterexample: parsing the literal input leaves three spaces
between Meeting and notes (one for each removed mention plus the one
preceding notes), not the two spaces asserted by the claim. -/
theorem claim3_counterexample :
    parseReminders "5/3 Meeting @alice @bob (lead) notes here".toList ≠
      [⟨"5/3".toList, ["<@alice".toList, "<@bob (lead)".toList],
        "Meeting  notes here".toList⟩] := by decide

/-- C3 (amended): parsing the literal input yields exactly one entry with
date 5/3, users the two marked mention tokens, and message the exact
string with the mentions removed and whitespace trimmed only at the
edges — leaving three spaces between Meeting and notes. -/
theorem claim3_literal_parse :
    parseReminders "5/3 Meeting @alice @bob (lead) notes here".toList =
      [⟨"5/3".toList, ["<@alice".toList, "<@bob (lead)".toList],
        "Meeting   notes here".toList⟩] := by decide

/-- C4 counterexample: the text with no date token at the start of any
line still parses to one entry, because the scan accepts a date token
anywhere, so the claimed line-start anchoring is false both for where
segments may begin and for when the parser returns the empty sequence. -/
theorem claim4_counterexample :
    lineStartDateExists "x 5/3 a".toList = false ∧
      parseReminders "x 5/3 a".toList = [⟨"5/3".toList, [], "a".toList⟩] := by
  decide

/-- C4 (amended): the parser scans left to right for a date token
anywhere in the text (not only at line starts) that is immediately
followed by whitespace; each match yields one (date, contentBlock)
segment extending across line breaks up to the next newline that is
immediately followed by a date token, or the end of text; the parse is
empty exactly when no position of the text carries such a match, and an
empty parse is a no-op: success is reported, no change event is
produced, storage is untouched and no notification is sent. -/
theorem claim4_segmentation (text : Str) :
    (parseReminders text = [] ↔ ∀ s', s' <:+ text → matchAt s' = none) ∧
    (∀ p ∈ scanFindAll text,
      ∃ s' rest, s' <:+ text ∧ matchAt s' = some (p.1, p.2, rest)) ∧
    (parseReminders text = [] →
      ∀ team ts store, parseAndSaveReminders team text ts store =
        { success := true, changes := [], store := store, notified := false }) := by
  refine ⟨?_, ?_, ?_⟩
  · unfold parseReminders
    rw [List.map_eq_nil_iff]
    exact scanAux_eq_nil_iff (le_refl _)
  · intro p hp
    exact scanAux_mem (le_refl _) hp
  · intro hnil team ts store
    simp [parseAndSaveReminders, hnil]

theorem claim4_witness :
    parseReminders "no dates".toList = [] ∧
      parseAndSaveReminders "T".toList "no dates".toList "9".toList [] =
        { success := true, changes := [], store := [], notified := false } :=
  ⟨by decide, (claim4_segmentation ("no dates".toList)).2.2 (by decide) _ _ _⟩

/-- C10: a date token yields a segment only when it is immediately
followed by at least one whitespace character — the content group of
every match begins with a whitespace character — and in particular an
input that is a bare date token, or a date token followed directly by a
non-whitespace character, parses to no entry at all. -/
theorem claim10_whitespace_required :
    (∀ text : Str, ∀ p ∈ scanFindAll text,
        ∃ c cs, p.2 = c :: cs ∧ isPySpace c = true) ∧
      parseReminders "5/3".toList = [] ∧
      parseReminders "5/3,meeting".toList = [] := by
  refine ⟨?_, by decide, by decide⟩
  intro text p hp
  obtain ⟨s', rest, _, hm⟩ := scanAux_mem (le_refl _) hp
  obtain ⟨_, _, c, cs, hc, hsp⟩ := matchAt_some hm
  exact ⟨c, cs, hc, hsp⟩

theorem claim10_witness :
    ∃ c cs, (("6/7".toList, " q".toList) : Str × Str).2 = c :: cs ∧
      isPySpace c = true :=
  claim10_whitespace_required.1 ("6/7 q".toList) ("6/7".toList, " q".toList)
    (by decide)

end SlackReminder

namespace SlackReminder

theorem filter_date_nodup :
    ∀ (es : List Entry), ((es.map fun e => e.date).Nodup) →
      ∀ e ∈ es, es.filter (fun x => x.date == e.date) = [e] := by
  intro es
  induction es with
  | nil => intro _ e he; exact absurd he (by simp)
  | cons a es ih =>
    intro hnd e he
    have hnd' : (a.date :: es.map fun x => x.date).Nodup := by simpa using hnd
    obtain ⟨hnotin, hndtail⟩ := List.nodup_cons.mp hnd'
    rcases List.mem_cons.mp he with he | he
    · subst he
      rw [List.filter_cons, if_pos (by simp)]
      have hnil : es.filter (fun x => x.date == e.date) = [] := by
        rw [List.filter_eq_nil_iff]
        intro x hx hc
        exact hnotin ((beq_iff_eq.mp hc) ▸ List.mem_map_of_mem _ hx)
      rw [hnil]
    · have hne : ¬ (a.date == e.date) = true := by
        intro hc
        exact hnotin ((beq_iff_eq.mp hc).symm ▸ List.mem_map_of_mem (fun x => x.date) he)
      rw [List.filter_cons, if_neg hne]
      exact ih hndtail e he

theorem queryKey_after_run (team ts : Str) (es : List Entry) (st : Store)
    (hu : KeyUnique st) (hnd : (es.map fun e => e.date).Nodup) :
    ∀ e ∈ es, queryKey (saveFoldStore team ts es st) team e.date =
      [buildItem team ts e] := by
  intro e he
  rw [queryKey_saveFold_eq team ts es st hu e.date]
  have hl : lastWith es e.date = some e := by
    unfold lastWith
    rw [filter_date_nodup es hnd e he]
    rfl
  rw [hl]

/-- C2 counterexample: for the text whose two entries carry the same
date, running parse_and_save_reminders twice on byte-identical input
still produces change events on the second run, because each entry of
the second run is compared against the last record written for that
date, not against the entry it was parsed from. -/
theorem claim2_counterexample :
    (parseAndSaveReminders "T".toList "5/3 a\n5/3 b".toList "2".toList
        (parseAndSaveReminders "T".toList "5/3 a\n5/3 b".toList "1".toList []).store).changes
      ≠ [] := by decide

/-- C2 (amended): for texts whose parsed entries carry pairwise-distinct
dates, running parse_and_save_reminders twice on byte-identical text
(with different message_ts values) produces, on the first run, a Created
change for every entry whose key was absent from storage, and no change
event at all on the second run, because message_ts is excluded from the
equality comparison; the second run nevertheless rewrites every stored
record, which afterwards carries the second run's message_ts and is
otherwise unchanged. -/
theorem claim2_idempotent_reruns (team text ts1 ts2 : Str) (store : Store)
    (hu : KeyUnique store)
    (hnd : ((parseReminders text).map fun e => e.date).Nodup) :
    (∀ e ∈ parseReminders text, queryKey store team e.date = [] →
        Change.created (buildItem team ts1 e) ∈
          (parseAndSaveReminders team text ts1 store).changes) ∧
    (parseAndSaveReminders team text ts2
        (parseAndSaveReminders team text ts1 store).store).changes = [] ∧
    (∀ e ∈ parseReminders text,
        queryKey (parseAndSaveReminders team text ts2
            (parseAndSaveReminders team text ts1 store).store).store team e.date =
          [buildItem team ts2 e] ∧
        buildItem team ts2 e = { buildItem team ts1 e with message_ts := ts2 }) := by
  have hst1 : (parseAndSaveReminders team text ts1 store).store =
      saveFoldStore team ts1 (parseReminders text) store :=
    saveStep_store team ts1 (parseReminders text) [] store
  have hu1 : KeyUnique (parseAndSaveReminders team text ts1 store).store := by
    rw [hst1]
    exact keyUnique_saveFold team ts1 (parseReminders text) store hu
  have hq1 : ∀ e ∈ parseReminders text,
      queryKey (parseAndSaveReminders team text ts1 store).store team e.date =
        [buildItem team ts1 e] := by
    rw [hst1]
    exact queryKey_after_run team ts1 (parseReminders text) store hu hnd
  refine ⟨?_, ?_, ?_⟩
  · intro e he hq
    exact changes_created_of_absent team ts1 (parseReminders text) store [] hnd e he hq
  · exact saveStep_noChange team ts1 ts2 (parseReminders text)
      (parseAndSaveReminders team text ts1 store).store [] hnd hq1
  · intro e he
    refine ⟨?_, rfl⟩
    have hst2 : (parseAndSaveReminders team text ts2
        (parseAndSaveReminders team text ts1 store).store).store =
        saveFoldStore team ts2 (parseReminders text)
          (parseAndSaveReminders team text ts1 store).store :=
      saveStep_store team ts2 (parseReminders text) [] _
    rw [hst2]
    exact queryKey_after_run team ts2 (parseReminders text) _ hu1 hnd e he

theorem claim2_witness :
    (parseAndSaveReminders "U".toList "7/8 w".toList "2".toList
        (parseAndSaveReminders "U".toList "7/8 w".toList "1".toList []).store).changes
      = [] :=
  (claim2_idempotent_reruns "U".toList "7/8 w".toList "1".toList "2".toList []
      List.Pairwise.nil (by decide)).2.1

/-- C5: reconciliation preserves the invariant that storage holds at
most one record per (team_id, date) key; the final storage equals the
unconditional fold of key-replacing puts over the parsed entries in
order (so entries sharing a date are all processed, with no
deduplication within the message), and for each key the record stored at
the end is the one built from the last entry carrying that date in
iteration order — a full replacement, while keys of other teams or
dates are left unchanged. -/
theorem claim5_last_write_wins (team text ts : Str) (store : Store)
    (hu : KeyUnique store) :
    KeyUnique (parseAndSaveReminders team text ts store).store ∧
    (parseAndSaveReminders team text ts store).store =
      saveFoldStore team ts (parseReminders text) store ∧
    (∀ d : Str,
      queryKey (parseAndSaveReminders team text ts store).store team d =
        match lastWith (parseReminders text) d with
        | some e => [buildItem team ts e]
        | none => queryKey store team d) ∧
    (∀ t d : Str, t ≠ team →
      queryKey (parseAndSaveReminders team text ts store).store t d =
        queryKey store t d) := by
  have hst : (parseAndSaveReminders team text ts store).store =
      saveFoldStore team ts (parseReminders text) store :=
    saveStep_store team ts (parseReminders text) [] store
  refine ⟨?_, hst, ?_, ?_⟩
  · rw [hst]
    exact keyUnique_saveFold team ts (parseReminders text) store hu
  · intro d
    rw [hst]
    exact queryKey_saveFold_eq team ts (parseReminders text) store hu d
  · intro t d ht
    rw [hst]
    exact queryKey_saveFold_ne team ts (parseReminders text) store t d ht

theorem claim5_witness :
    queryKey (parseAndSaveReminders "V".toList "5/9 a\n5/9 b".toList "3".toList []).store
        "V".toList "5/9".toList =
      [⟨"V".toList, "5/9".toList, [], "b".toList, "3".toList⟩] := by
  have h := (claim5_last_write_wins "V".toList "5/9 a\n5/9 b".toList "3".toList []
      List.Pairwise.nil).2.2.1 ("5/9".toList)
  rw [h]
  decide

end SlackReminder

namespace SlackReminder

theorem excGo_ok (team ts : Str) (failOp : Nat) :
    ∀ (es : List Entry) (opIdx : Nat) (st : Store) (chs : List Change),
      opIdx + 2 * es.length ≤ failOp →
      excGo team ts failOp es opIdx st chs =
        Except.ok (true, (es.foldl (saveStep team ts) (chs, st)).1,
          (es.foldl (saveStep team ts) (chs, st)).2) := by
  intro es
  induction es with
  | nil => intro opIdx st chs _; rfl
  | cons e es ih =>
    intro opIdx st chs hle
    simp only [List.length_cons] at hle
    have h1 : ¬ ((opIdx == failOp) = true) := by
      rw [beq_iff_eq]
      omega
    have h2 : ¬ ((opIdx + 1 == failOp) = true) := by
      rw [beq_iff_eq]
      omega
    simp only [excGo]
    rw [if_neg h1, if_neg h2]
    rw [List.foldl_cons]
    have hstep : saveStep team ts (chs, st) e =
        (chs ++ (reconcileEntry st (buildItem team ts e)).1.toList,
          putItem st (buildItem team ts e)) := rfl
    rw [hstep]
    exact ih (opIdx + 2) _ _ (by omega)

theorem excGo_error_at_query (team ts : Str) :
    ∀ (es : List Entry) (j opIdx : Nat) (st : Store) (chs : List Change),
      j < es.length →
      excGo team ts (opIdx + 2 * j) es opIdx st chs =
        Except.error (saveFoldStore team ts (es.take j) st) := by
  intro es
  induction es with
  | nil => intro j opIdx st chs hj; simp at hj
  | cons e es ih =>
    intro j opIdx st chs hj
    cases j with
    | zero =>
      simp only [excGo]
      rw [if_pos (by simp)]
      rfl
    | succ j =>
      simp only [excGo]
      have h1 : ¬ ((opIdx == opIdx + 2 * (j + 1)) = true) := by
        rw [beq_iff_eq]
        omega
      have h2 : ¬ ((opIdx + 1 == opIdx + 2 * (j + 1)) = true) := by
        rw [beq_iff_eq]
        omega
      rw [if_neg h1, if_neg h2]
      have harith : opIdx + 2 * (j + 1) = (opIdx + 2) + 2 * j := by omega
      rw [harith]
      have hjlen : j < es.length := by
        simp only [List.length_cons] at hj
        omega
      exact ih j (opIdx + 2) _ _ hjlen

theorem excGo_error_at_put (team ts : Str) :
    ∀ (es : List Entry) (j opIdx : Nat) (st : Store) (chs : List Change),
      j < es.length →
      excGo team ts (opIdx + (2 * j + 1)) es opIdx st chs =
        Except.error (saveFoldStore team ts (es.take j) st) := by
  intro es
  induction es with
  | nil => intro j opIdx st chs hj; simp at hj
  | cons e es ih =>
    intro j opIdx st chs hj
    cases j with
    | zero =>
      simp only [excGo]
      have h1 : ¬ ((opIdx == opIdx + (2 * 0 + 1)) = true) := by
        rw [beq_iff_eq]
        omega
      rw [if_neg h1]
      rw [if_pos (by simp)]
      rfl
    | succ j =>
      simp only [excGo]
      have h1 : ¬ ((opIdx == opIdx + (2 * (j + 1) + 1)) = true) := by
        rw [beq_iff_eq]
        omega
      have h2 : ¬ ((opIdx + 1 == opIdx + (2 * (j + 1) + 1)) = true) := by
        rw [beq_iff_eq]
        omega
      rw [if_neg h1, if_neg h2]
      have harith : opIdx + (2 * (j + 1) + 1) = (opIdx + 2) + (2 * j + 1) := by omega
      rw [harith]
      have hjlen : j < es.length := by
        simp only [List.length_cons] at hj
        omega
      exact ih j (opIdx + 2) _ _ hjlen

/-- C6: parse_and_save_reminders returns the success value
unconditionally whenever every storage operation completes — there is no
input or prior storage state for which it returns the failure value —
and when a storage operation raises partway through the entry sequence,
whether the read of entry number j (operation 2j) or the write of entry
number j (operation 2j+1), the whole call aborts with the exception
propagating, the entries processed before the failing one are already
committed — the failing entry's write never executes — and no rollback
is performed. -/
theorem claim6_success_and_abort (team text ts : Str) (store : Store) :
    (parseAndSaveReminders team text ts store).success = true ∧
    (∀ failOp : Nat, 2 * (parseReminders text).length ≤ failOp →
      parseAndSaveExc team text ts store failOp =
        Except.ok (true, (parseAndSaveReminders team text ts store).changes,
          (parseAndSaveReminders team text ts store).store)) ∧
    (∀ j : Nat, j < (parseReminders text).length →
      parseAndSaveExc team text ts store (2 * j) =
        Except.error (saveFoldStore team ts ((parseReminders text).take j) store)) ∧
    (∀ j : Nat, j < (parseReminders text).length →
      parseAndSaveExc team text ts store (2 * j + 1) =
        Except.error (saveFoldStore team ts ((parseReminders text).take j) store)) := by
  refine ⟨rfl, ?_, ?_, ?_⟩
  · intro failOp hle
    exact excGo_ok team ts failOp (parseReminders text) 0 store [] (by omega)
  · intro j hj
    have h := excGo_error_at_query team ts (parseReminders text) j 0 store [] hj
    simpa using h
  · intro j hj
    have h := excGo_error_at_put team ts (parseReminders text) j 0 store [] hj
    simpa using h

theorem claim6_witness :
    (parseAndSaveExc "W".toList "1/2 m\n3/4 n".toList "5".toList [] (2 * 1) =
      Except.error (saveFoldStore "W".toList "5".toList
        ((parseReminders "1/2 m\n3/4 n".toList).take 1) [])) ∧
    (parseAndSaveExc "W".toList "1/2 m\n3/4 n".toList "5".toList [] (2 * 1 + 1) =
      Except.error (saveFoldStore "W".toList "5".toList
        ((parseReminders "1/2 m\n3/4 n".toList).take 1) [])) ∧
    saveFoldStore "W".toList "5".toList
        ((parseReminders "1/2 m\n3/4 n".toList).take 1) [] =
      [⟨"W".toList, "1/2".toList, [], "m".toList, "5".toList⟩] :=
  ⟨(claim6_success_and_abort "W".toList "1/2 m\n3/4 n".toList "5".toList []).2.2.1 1
      (by decide),
    (claim6_success_and_abort "W".toList "1/2 m\n3/4 n".toList "5".toList []).2.2.2 1
      (by decide),
    by decide⟩

/-- C8: the synchronous pipeline of app.py and the cooperatively
scheduled pipeline of asyncapp.py implement the same core logic: on
every team, input text, message timestamp and prior storage state, the
two parse_and_save_reminders functions produce the same parsed entries,
the same sequence of classified change events, the same final storage
state, the same notification condition and the same returned success
value. -/
theorem claim8_async_equiv (team text ts : Str) (store : Store) :
    AsyncApp.parseReminders text = parseReminders text ∧
    AsyncApp.parseAndSaveReminders team text ts store =
      parseAndSaveReminders team text ts store :=
  ⟨rfl, rfl⟩

end SlackReminder

namespace SlackReminder

theorem contains_iff_mem {l : List Str} {x : Str} : l.contains x = true ↔ x ∈ l := by
  simp

theorem keyOrderAux_mem :
    ∀ (l seen : List Str) (x : Str),
      x ∈ keyOrderAux seen l ↔ x ∈ l ∧ ¬ x ∈ seen := by
  intro l
  induction l with
  | nil => intro seen x; simp [keyOrderAux]
  | cons t ts ih =>
    intro seen x
    simp only [keyOrderAux]
    by_cases hc : seen.contains t = true
    · rw [if_pos hc, ih]
      constructor
      · rintro ⟨hx, hns⟩
        exact ⟨List.mem_cons_of_mem _ hx, hns⟩
      · rintro ⟨hx, hns⟩
        rcases List.mem_cons.mp hx with rfl | hx
        · exact absurd (contains_iff_mem.mp hc) hns
        · exact ⟨hx, hns⟩
    · rw [if_neg hc]
      constructor
      · intro hx
        rcases List.mem_cons.mp hx with rfl | hx
        · exact ⟨List.mem_cons_self _ _, fun hs => hc (contains_iff_mem.mpr hs)⟩
        · rw [ih] at hx
          obtain ⟨h1, h2⟩ := hx
          exact ⟨List.mem_cons_of_mem _ h1, fun hs => h2 (List.mem_cons_of_mem _ hs)⟩
      · rintro ⟨hx, hns⟩
        rcases List.mem_cons.mp hx with rfl | hx
        · exact List.mem_cons_self _ _
        · by_cases hxt : x = t
          · subst hxt
            exact List.mem_cons_self _ _
          · apply List.mem_cons_of_mem
            rw [ih]
            exact ⟨hx, fun hs => (List.mem_cons.mp hs).elim hxt hns⟩

theorem keyOrderAux_nodup : ∀ (l seen : List Str), (keyOrderAux seen l).Nodup := by
  intro l
  induction l with
  | nil => intro seen; simp [keyOrderAux]
  | cons t ts ih =>
    intro seen
    simp only [keyOrderAux]
    by_cases hc : seen.contains t = true
    · rw [if_pos hc]
      exact ih seen
    · rw [if_neg hc]
      rw [List.nodup_cons]
      refine ⟨?_, ih _⟩
      intro hmem
      rw [keyOrderAux_mem] at hmem
      exact hmem.2 (List.mem_cons_self _ _)

theorem flatMap_congr_fun {α β : Type} {l : List α} {f g : α → List β}
    (h : ∀ a ∈ l, f a = g a) : l.flatMap f = l.flatMap g := by
  induction l with
  | nil => rfl
  | cons a l ih =>
    simp only [List.flatMap_cons]
    rw [h a (List.mem_cons_self _ _), ih (fun b hb => h b (List.mem_cons_of_mem _ hb))]

theorem flatMap_filter_shift {α : Type} (f : α → Str) (t : Str) :
    ∀ (ks : List Str) (l : List α), ¬ t ∈ ks →
      (ks.flatMap fun u => l.filter fun x => f x == u) =
        ks.flatMap fun u => (l.filter fun x => !(f x == t)).filter fun x => f x == u := by
  intro ks
  induction ks with
  | nil => intro l _; rfl
  | cons u ks ih =>
    intro l ht
    have hut : u ≠ t := fun hc => ht (hc ▸ List.mem_cons_self _ _)
    simp only [List.flatMap_cons]
    congr 1
    · rw [List.filter_filter]
      apply List.filter_congr
      intro x _
      by_cases hfx : (f x == u) = true
      · have hxu : f x = u := beq_iff_eq.mp hfx
        have hxt : (f x == t) = false := by
          simp [hxu, hut]
        rw [hfx, hxt]
        rfl
      · rw [Bool.eq_false_iff.mpr hfx]
        rfl
    · exact ih l (fun hc => ht (List.mem_cons_of_mem _ hc))

theorem flatMap_filter_perm {α : Type} (f : α → Str) :
    ∀ (ks : List Str) (l : List α), ks.Nodup → (∀ x ∈ l, f x ∈ ks) →
      (ks.flatMap fun u => l.filter fun x => f x == u).Perm l := by
  intro ks
  induction ks with
  | nil =>
    intro l _ hall
    have hl : l = [] := List.eq_nil_iff_forall_not_mem.mpr
      (fun a ha => by simpa using hall a ha)
    rw [hl]
    rfl
  | cons t ks ih =>
    intro l hnd hall
    obtain ⟨hnotin, hnd2⟩ := List.nodup_cons.mp hnd
    simp only [List.flatMap_cons]
    rw [flatMap_filter_shift f t ks l hnotin]
    have hperm : ((l.filter fun x => f x == t) ++
        (l.filter fun x => !(f x == t))).Perm l :=
      List.filter_append_perm _ l
    refine List.Perm.trans ?_ hperm
    apply List.Perm.append_left
    apply ih _ hnd2
    intro x hx
    rw [List.mem_filter] at hx
    have hft : ¬ (f x = t) := by
      intro hc
      have h2 := hx.2
      rw [hc] at h2
      simp at h2
    rcases List.mem_cons.mp (hall x hx.1) with hc | hc
    · exact absurd hc hft
    · exact hc

/-- C7: daily dispatch, given today's date string, sends exactly one
outbound message per stored record whose date equals today — the output
message list is a permutation (grouped by team) of one message per
matching record, each addressed to its team's reminder channel with
text equal to the record's mention tokens joined by single spaces,
followed by the fixed label and the record's message — it sends nothing
for records whose date differs, and it leaves the storage entirely
unchanged. -/
theorem claim7_daily_dispatch (today : Str) (reminderChannel : Str → Str)
    (store : Store) :
    (sendReminders today reminderChannel store).2 = store ∧
    ((sendReminders today reminderChannel store).1).Perm
      ((store.filter fun r => r.date == today).map fun r =>
        { team_id := r.team_id, channel := reminderChannel r.team_id
          text := reminderText r }) ∧
    (∀ m ∈ (sendReminders today reminderChannel store).1,
      m.channel = reminderChannel m.team_id) := by
  refine ⟨rfl, ?_, ?_⟩
  · simp only [sendReminders]
    have hmem : ∀ x ∈ (store.filter fun r => r.date == today), x.team_id ∈
        keyOrder ((store.filter fun r => r.date == today).map fun r => r.team_id) := by
      intro x hx
      unfold keyOrder
      rw [keyOrderAux_mem]
      exact ⟨List.mem_map_of_mem _ hx, by simp⟩
    have hperm := flatMap_filter_perm (fun r : ReminderRecord => r.team_id)
        (keyOrder ((store.filter fun r => r.date == today).map fun r => r.team_id))
        (store.filter fun r => r.date == today)
        (keyOrderAux_nodup _ []) hmem
    have hmapped := hperm.map (fun r : ReminderRecord =>
        ({ team_id := r.team_id, channel := reminderChannel r.team_id,
           text := reminderText r } : OutMsg))
    rw [List.map_flatMap] at hmapped
    refine List.Perm.trans ?_ hmapped
    have heq : ((keyOrder ((store.filter fun r => r.date == today).map
          fun r => r.team_id)).flatMap fun t =>
        ((store.filter fun r => r.date == today).filter
            fun r => r.team_id == t).map fun r =>
          ({ team_id := t, channel := reminderChannel t,
             text := reminderText r } : OutMsg)) =
        ((keyOrder ((store.filter fun r => r.date == today).map
          fun r => r.team_id)).flatMap fun t =>
        ((store.filter fun r => r.date == today).filter
            fun r => r.team_id == t).map fun r =>
          ({ team_id := r.team_id, channel := reminderChannel r.team_id,
             text := reminderText r } : OutMsg)) := by
      apply flatMap_congr_fun
      intro t _
      apply List.map_congr_left
      intro r hr
      rw [List.mem_filter] at hr
      have hrt : r.team_id = t := beq_iff_eq.mp hr.2
      rw [hrt]
    rw [heq]
  · intro m hm
    simp only [sendReminders, List.mem_flatMap, List.mem_map] at hm
    obtain ⟨t, ht, r, hr, hmr⟩ := hm
    subst hmr
    rfl

theorem claim7_witness :
    (∀ m ∈ (sendReminders "5/3".toList (fun t => '#' :: t)
        [⟨"A".toList, "5/3".toList, [], "m".toList, "1".toList⟩,
         ⟨"B".toList, "5/4".toList, [], "n".toList, "1".toList⟩]).1,
      m.channel = ('#' :: m.team_id)) ∧
    (sendReminders "5/3".toList (fun t => '#' :: t)
        [⟨"A".toList, "5/3".toList, [], "m".toList, "1".toList⟩,
         ⟨"B".toList, "5/4".toList, [], "n".toList, "1".toList⟩]).1 =
      [⟨"A".toList, '#' :: "A".toList,
        " リマインダー: ".toList ++ "m".toList⟩] :=
  ⟨(claim7_daily_dispatch "5/3".toList (fun t => '#' :: t)
      [⟨"A".toList, "5/3".toList, [], "m".toList, "1".toList⟩,
       ⟨"B".toList, "5/4".toList, [], "n".toList, "1".toList⟩]).2.2,
    by decide⟩

end SlackReminder

namespace SlackReminder

theorem handle_duplicate_noop (today scheduleChannel : Str)
    (reminderChannel : Str → Str) (ev : MentionEvent)
    (processed : List Str) (store : Store)
    (h : processed.contains (effectiveTs ev) = true) :
    handleAppMention today scheduleChannel reminderChannel ev processed store =
      { processed := processed, store := store, posts := [] } := by
  have hmem : effectiveTs ev ∈ processed := by simpa using h
  simp [handleAppMention, hmem]

theorem handle_marks_processed (today scheduleChannel : Str)
    (reminderChannel : Str → Str) (ev : MentionEvent)
    (processed : List Str) (store : Store) :
    (handleAppMention today scheduleChannel reminderChannel ev
        processed store).processed.contains (effectiveTs ev) = true := by
  by_cases h : processed.contains (effectiveTs ev) = true
  · rw [handle_duplicate_noop today scheduleChannel reminderChannel ev processed store h]
    exact h
  · simp only [handleAppMention]
    rw [if_neg h]
    by_cases h2 : strHasSub ("test".toList) (pyLower ev.text) = true
    · rw [if_pos h2]
      simp
    · rw [if_neg h2]
      by_cases h3 : (ev.channel == scheduleChannel) = true
      · rw [if_pos h3]
        simp
      · rw [if_neg h3]
        simp

/-- C9: within one process instance, an inbound mention event whose
effective timestamp (the edited timestamp when the event is an edit,
the original timestamp otherwise) is already in the processed set is
suppressed before any parsing or storage access: the handler returns
with the processed set, the storage and the outbound posts all
unchanged; and after any event is handled, handling a second event
carrying the same effective timestamp changes nothing and posts
nothing. -/
theorem claim9_duplicate_suppression (today scheduleChannel : Str)
    (reminderChannel : Str → Str) (ev ev2 : MentionEvent)
    (processed : List Str) (store : Store) :
    (processed.contains (effectiveTs ev) = true →
      handleAppMention today scheduleChannel reminderChannel ev processed store =
        { processed := processed, store := store, posts := [] }) ∧
    ((handleAppMention today scheduleChannel reminderChannel ev
        processed store).processed.contains (effectiveTs ev) = true) ∧
    (effectiveTs ev2 = effectiveTs ev →
      handleAppMention today scheduleChannel reminderChannel ev2
          (handleAppMention today scheduleChannel reminderChannel ev
            processed store).processed
          (handleAppMention today scheduleChannel reminderChannel ev
            processed store).store =
        { processed := (handleAppMention today scheduleChannel reminderChannel ev
            processed store).processed
          store := (handleAppMention today scheduleChannel reminderChannel ev
            processed store).store
          posts := [] }) := by
  refine ⟨handle_duplicate_noop today scheduleChannel reminderChannel ev processed store,
    handle_marks_processed today scheduleChannel reminderChannel ev processed store, ?_⟩
  intro heq
  apply handle_duplicate_noop
  rw [heq]
  exact handle_marks_processed today scheduleChannel reminderChannel ev processed store

theorem claim9_witness :
    handleAppMention "5/3".toList "#s".toList (fun t => t)
        ⟨"T".toList, "#s".toList, "1/2 x".toList, "111".toList, none⟩
        ["111".toList] [] =
      { processed := ["111".toList], store := [], posts := [] } :=
  (claim9_duplicate_suppression "5/3".toList "#s".toList (fun t => t)
      ⟨"T".toList, "#s".toList, "1/2 x".toList, "111".toList, none⟩
      ⟨"T".toList, "#s".toList, "1/2 x".toList, "111".toList, none⟩
      ["111".toList] []).1 (by decide)

end SlackReminder
